import Mathlib

/-!
Verification of the smfh manifest activator against its specification.

The repository snapshot under verification contains several revisions of the
same program.  The two that the claims reference are:

* `src/manifest.rs` — the newest revision: entry kinds
  `Directory | Copy | Symlink | Modify | Delete`, the `File::cmp` ordering,
  the octal permissions deserializer, and `Manifest::diff`.
  It is embedded in the namespace `ManifestRs`.
* `src/file_util.rs` — an earlier revision of the per-entry reconciler: the
  same entry fields plus a transient `metadata` snapshot, and the kinds
  `Directory | File | Symlink | Modify | Delete | RecursiveSymlink`
  (`File` is the kind the newest revision renames to `Copy`).  The enum
  itself is reconstructed from the variants `file_util.rs` matches on, since
  the `manifest.rs` revision it compiled against is not part of the snapshot.
  It is embedded in the namespace `FileUtil`.

The filesystem is modelled as a finite oracle: an association list from paths
to metadata, together with oracles for `canonicalize`, `hash_file` and file
sizes.  Effectful functions are embedded in state-passing style and emit a
trace of operations, so that "performs no filesystem mutation" is a statement
about the trace and the returned state.  The `canonicalize` oracle is a fixed
snapshot; this is sound for the code fragments embedded here because every
`canonicalize` call they perform happens before any mutation that could
change symlink resolution (the recursive walkers, whose internals no claim
depends on, are represented as single opaque trace events that count as
mutations).
-/

/-- Absolute path, as the list of its components below the filesystem root.
`⟨["a", "b"]⟩` stands for `/a/b`; `⟨[]⟩` stands for `/`. -/
structure FsPath where
  components : List String
deriving DecidableEq, Repr

namespace FsPath

/-- Model of Rust `Path::file_name`: the last component, if any. -/
def fileName (p : FsPath) : Option String :=
  p.components.getLast?

/-- Model of Rust `Path::parent`: drop the last component; `None` for `/`. -/
def parent (p : FsPath) : Option FsPath :=
  match p.components with
  | [] => none
  | _ => some ⟨p.components.dropLast⟩

/-- Model of Rust `Path::join` with a single file-name component. -/
def join (p : FsPath) (s : String) : FsPath :=
  ⟨p.components ++ [s]⟩

/-- Model of Rust `Path::ancestors().count()` for the absolute paths of this
model: the path itself, each proper ancestor, and the root `/`. -/
def ancestorCount (p : FsPath) : Nat :=
  p.components.length + 1

end FsPath

/-- The kind of a filesystem object, as distinguished by the metadata
predicates `is_file` / `is_dir` / `is_symlink` the source consults. -/
inductive FType where
  | regular
  | dir
  | symlink
deriving DecidableEq, Repr

/-- Result of `fs::symlink_metadata`: file type, mode bits and ownership. -/
structure FMeta where
  ftype : FType
  mode : Nat
  uid : Nat
  gid : Nat
deriving DecidableEq, Repr

/-- Finite filesystem oracle.  `meta` is the association list backing
`fs::symlink_metadata` (absent key = `NotFound`); `canon` backs
`fs::canonicalize` (absent key = error); `hash` backs `hash_file`
(absent key = error); `fsize` records file sizes, which the embedded code
never reads — it exists so that specification statements can talk about
sizes.  `procUid`/`procGid` are the ownership given to newly created
filesystem objects. -/
structure Fs where
  meta : List (FsPath × FMeta)
  canon : List (FsPath × FsPath)
  hash : List (FsPath × Nat)
  fsize : List (FsPath × Nat)
  procUid : Nat
  procGid : Nat
deriving DecidableEq, Repr

/-- First value bound to key `k` in an association list. -/
def alookup {β : Type} (l : List (FsPath × β)) (k : FsPath) : Option β :=
  match l with
  | [] => none
  | (k', v) :: rest => if k' = k then some v else alookup rest k

/-- Replace (or add) the binding of `k`. -/
def aset {β : Type} (l : List (FsPath × β)) (k : FsPath) (v : β) :
    List (FsPath × β) :=
  match l with
  | [] => [(k, v)]
  | (k', v') :: rest => if k' = k then (k, v) :: rest else (k', v') :: aset rest k v

/-- Remove every binding of `k`. -/
def adel {β : Type} (l : List (FsPath × β)) (k : FsPath) : List (FsPath × β) :=
  l.filter (fun e => e.1 ≠ k)

namespace Fs

/-- Model of `fs::symlink_metadata` (`None` = `NotFound`). -/
def metaOf (fs : Fs) (p : FsPath) : Option FMeta :=
  alookup fs.meta p

/-- Model of `fs::canonicalize` (`None` = error). -/
def canonOf (fs : Fs) (p : FsPath) : Option FsPath :=
  alookup fs.canon p

/-- Model of `hash_file` (`None` = I/O error).  `hash_file` reads the whole
file and returns `xxh3_64` of its contents; the oracle records that value
per path. -/
def hashOf (fs : Fs) (p : FsPath) : Option Nat :=
  alookup fs.hash p

/-- Size of the file at `p`; never read by the embedded code. -/
def sizeOf (fs : Fs) (p : FsPath) : Option Nat :=
  alookup fs.fsize p

/-- Is some entry a strict child of directory `p`? (used by `remove_dir`). -/
def hasChild (fs : Fs) (p : FsPath) : Bool :=
  fs.meta.any (fun e =>
    e.1.components.length = p.components.length + 1 ∧
    e.1.components.take p.components.length = p.components)

end Fs

/-- Trace events.  Log lines carry their structured arguments instead of the
formatted message; removal, rename, creation and attribute events mirror the
filesystem primitives the source calls.  `recursiveWalk` / `recursiveCleanup`
stand for the `recursive_symlink` / `recursive_cleanup` directory walkers,
whose internals no claim in this development depends on; they count as
mutations. -/
inductive Op where
  | warnMissingSource (target : FsPath)
  | infoAlreadyCorrect (target : FsPath)
  | infoAlreadyDeleted (target : FsPath)
  | infoDirExists (target : FsPath)
  | removeFile (p : FsPath)
  | removeDirAll (p : FsPath)
  | removeDir (p : FsPath)
  | rename (src : FsPath) (dst : FsPath)
  | createDirAll (p : FsPath)
  | copyFile (src : FsPath) (dst : FsPath)
  | mkSymlink (src : FsPath) (dst : FsPath)
  | setPerms (p : FsPath) (m : Nat)
  | chownOp (p : FsPath) (u : Option Nat) (g : Option Nat) (noFollow : Bool)
  | recursiveWalk (source : FsPath) (target : FsPath)
  | recursiveCleanup (source : FsPath) (target : FsPath)
deriving DecidableEq, Repr

/-- Which trace events mutate the filesystem (log lines do not). -/
def Op.isMutation : Op → Bool
  | .warnMissingSource _ => false
  | .infoAlreadyCorrect _ => false
  | .infoAlreadyDeleted _ => false
  | .infoDirExists _ => false
  | _ => true

/-- Paths strictly or loosely under `p` (for recursive removal). -/
def FsPath.isPrefixOf (p q : FsPath) : Bool :=
  q.components.take p.components.length = p.components

/-- Ancestor paths of `p` including `p` itself (for `create_dir_all`). -/
def FsPath.selfAndAncestors (p : FsPath) : List FsPath :=
  (List.range (p.components.length + 1)).map (fun n => ⟨p.components.take n⟩)

/-- Apply one mutation event to the filesystem oracle.  The `canon`, `hash`
and `fsize` oracles are transported for renames and removals; `canon` is
otherwise left as the fixed snapshot (see the module comment). -/
def Fs.applyOp (fs : Fs) (op : Op) : Fs :=
  match op with
  | .removeFile p => { fs with meta := adel fs.meta p, hash := adel fs.hash p,
                               fsize := adel fs.fsize p }
  | .removeDir p => { fs with meta := adel fs.meta p }
  | .removeDirAll p =>
      { fs with meta := fs.meta.filter (fun e => ¬ p.isPrefixOf e.1),
                hash := fs.hash.filter (fun e => ¬ p.isPrefixOf e.1),
                fsize := fs.fsize.filter (fun e => ¬ p.isPrefixOf e.1) }
  | .rename src dst =>
      { fs with
        meta := (match alookup fs.meta src with
                 | some m => aset (adel fs.meta src) dst m
                 | none => fs.meta),
        hash := (match alookup fs.hash src with
                 | some h => aset (adel fs.hash src) dst h
                 | none => adel fs.hash dst),
        fsize := (match alookup fs.fsize src with
                  | some s => aset (adel fs.fsize src) dst s
                  | none => adel fs.fsize dst) }
  | .createDirAll p =>
      let step := fun acc q => match alookup acc q with
        | some _ => acc
        | none => aset acc q ⟨FType.dir, 0o755, fs.procUid, fs.procGid⟩
      { fs with meta := p.selfAndAncestors.foldl step fs.meta }
  | .copyFile src dst =>
      { fs with
        meta := (match alookup fs.meta src with
                 | some m => aset fs.meta dst ⟨.regular, m.mode, fs.procUid, fs.procGid⟩
                 | none => fs.meta),
        hash := (match alookup fs.hash src with
                 | some h => aset fs.hash dst h
                 | none => adel fs.hash dst),
        fsize := (match alookup fs.fsize src with
                  | some s => aset fs.fsize dst s
                  | none => adel fs.fsize dst) }
  | .mkSymlink _ dst =>
      { fs with meta := aset fs.meta dst ⟨.symlink, 0o777, fs.procUid, fs.procGid⟩ }
  | .setPerms p m =>
      { fs with meta := (match alookup fs.meta p with
                         | some old => aset fs.meta p { old with mode := m % 0o10000 }
                         | none => fs.meta) }
  | .chownOp p u g _ =>
      { fs with meta := (match alookup fs.meta p with
                         | some old => aset fs.meta p
                             { old with uid := u.getD old.uid, gid := g.getD old.gid }
                         | none => fs.meta) }
  | _ => fs

/-- State after applying a whole trace. -/
def Fs.applyTrace (fs : Fs) (tr : List Op) : Fs :=
  tr.foldl Fs.applyOp fs

namespace FileUtil

/-- Entry kinds of the `file_util.rs` revision, reconstructed from the
variants that file matches on (its `manifest.rs` counterpart is not in the
snapshot).  `file` is the kind the newest revision renames to `Copy`. -/
inductive FileKind where
  | directory
  | file
  | symlink
  | modify
  | delete
  | recursiveSymlink
deriving DecidableEq, Repr

/-- Manifest entry of the `file_util.rs` revision: the serialized fields
plus the transient `metadata` snapshot populated by `set_metadata`.
`deactivateFlag` is the serialized `deactivate` field, renamed here because
the entry also has a `deactivate` method. -/
structure File where
  source : Option FsPath
  target : FsPath
  kind : FileKind
  clobber : Option Bool
  permissions : Option Nat
  uid : Option Nat
  gid : Option Nat
  deactivateFlag : Option Bool
  metadata : Option FMeta
deriving DecidableEq, Repr

/-- Model of `File::missing_source`: true when the kind needs a source and
the `source` field is absent.  (The warning it logs is emitted by the
callers in this embedding.) -/
def File.missing_source (f : File) : Bool :=
  (f.kind = FileKind.symlink ∨ f.kind = FileKind.file ∨
    f.kind = FileKind.recursiveSymlink) ∧ f.source = none

/-- Model of `File::check` (file_util.rs lines 117-192).  The match arms are
translated in source order; `metadata` is the snapshot stored on the entry.
Errors model the `eyre!` failures (`missing_source`, failed `canonicalize`
via `?`, failed `hash_file`). -/
def File.check (fs : Fs) (f : File) : Except String Bool :=
  match f.metadata with
  | none => .ok (f.kind = FileKind.delete)
  | some m =>
    if f.kind = FileKind.delete then .ok false
    else if f.source = none ∧ (f.kind = FileKind.symlink ∨ f.kind = FileKind.file ∨
        f.kind = FileKind.recursiveSymlink) then
      .error "missing_source"
    else if (f.kind = FileKind.file ∨ f.kind = FileKind.directory ∨
        f.kind = FileKind.modify) ∧
        (∃ p, f.permissions = some p ∧ p ≠ m.mode &&& 0o777) then
      .ok false
    else if ∃ u, f.uid = some u ∧ u ≠ m.uid then .ok false
    else if ∃ g, f.gid = some g ∧ g ≠ m.gid then .ok false
    else
      match f.kind, f.source with
      | FileKind.symlink, some src =>
        match fs.canonOf f.target, fs.canonOf src with
        | some ct, some cs => .ok (ct = cs)
        | _, _ => .error "canonicalize failed"
      | FileKind.directory, _ => .ok (m.ftype = FType.dir)
      | FileKind.file, some src =>
        if m.ftype ≠ FType.regular then .ok false
        else
          match fs.hashOf f.target, fs.hashOf src with
          | some ht, some hs => .ok (ht = hs)
          | none, _ => .error "Failed to hash file"
          | _, none => .error "Failed to hash file"
      | _, _ => .ok true

end FileUtil

/-- Result of an effectful call: outcome, emitted trace, resulting state.
On an error outcome the trace and state record what happened before the
failure (Rust's `?` aborts the function but not its earlier side effects). -/
abbrev FsRes := Except String Unit × List Op × Fs

/-- Sequencing: run the continuation only on success, accumulating traces. -/
def seqFs (r : FsRes) (k : Fs → FsRes) : FsRes :=
  match r with
  | (.error e, tr, fs) => (.error e, tr, fs)
  | (.ok _, tr, fs) =>
    let r2 := k fs
    (r2.1, tr ++ r2.2.1, r2.2.2)

/-- Sequencing that discards the first outcome (Rust's discarded result
binding on a fallible call): side effects are kept, the error is not. -/
def seqIgnore (r : FsRes) (k : Fs → FsRes) : FsRes :=
  let r2 := k r.2.2
  (r2.1, r.2.1 ++ r2.2.1, r2.2.2)

/-- Model of `file_util::mkdir`: create the directory (and any missing
ancestors) unless something is already there; a non-directory in the way is
an error. -/
def mkdir (fs : Fs) (p : FsPath) : FsRes :=
  match fs.metaOf p with
  | none =>
    let op := Op.createDirAll p
    (.ok (), [op], fs.applyOp op)
  | some x =>
    if x.ftype = FType.dir then (.ok (), [Op.infoDirExists p], fs)
    else (.error "File in way", [], fs)

/-- Model of `file_util::rmdir`: missing path is a success; a non-directory
is an error; `fs::remove_dir` itself fails on a non-empty directory. -/
def rmdir (fs : Fs) (p : FsPath) : FsRes :=
  match fs.metaOf p with
  | none => (.ok (), [], fs)
  | some m =>
    if m.ftype ≠ FType.dir then (.error "Path is not a directory", [], fs)
    else if fs.hasChild p then (.error "Directory not empty", [], fs)
    else
      let op := Op.removeDir p
      (.ok (), [op], fs.applyOp op)

/-- Model of `file_util::delete`: `remove_dir_all` for directories,
`remove_file` otherwise, guided by the caller-supplied metadata. -/
def delete (fs : Fs) (p : FsPath) (m : FMeta) : FsRes :=
  if m.ftype = FType.dir then
    let op := Op.removeDirAll p
    (.ok (), [op], fs.applyOp op)
  else
    let op := Op.removeFile p
    (.ok (), [op], fs.applyOp op)

/-- Model of `file_util::prefix_move` (lines 489-514): if `path` exists,
rename its canonical form to `parent / (pfx ++ file_name)`; when that
destination itself exists it is first moved aside by a recursive call, and
only then is the rename performed.  The source recurses without a bound and
terminates on a real (finite) filesystem; the `fuel` argument makes the
recursion structural, and exhausting it is reported as an error. -/
def prefix_move : Nat → Fs → FsPath → String → FsRes
  | 0, fs, _, _ => (.error "recursion limit", [], fs)
  | fuel+1, fs, path, pfx =>
    match fs.metaOf path with
    | none => (.ok (), [], fs)
    | some _ =>
      match fs.canonOf path with
      | none => (.error "canonicalize failed", [], fs)
      | some cpath =>
        match cpath.fileName with
        | none => (.error "Failed to get file name", [], fs)
        | some base =>
          match cpath.parent with
          | none => (.error "Failed to get parent", [], fs)
          | some par =>
            let newPath := par.join (pfx ++ base)
            let doRename := fun (fs1 : Fs) =>
              let op := Op.rename cpath newPath
              ((Except.ok () : Except String Unit), [op], fs1.applyOp op)
            match fs.metaOf newPath with
            | some _ => seqFs (prefix_move fuel fs newPath pfx) doRename
            | none => doRename fs

namespace FileUtil

/-- Model of `File::chmod_chown` (file_util.rs lines 219-268): re-stat the
target; for non-symlink kinds apply `permissions` unless the observed mode
already matches (an early successful return that skips the ownership step);
then, when a uid is present (the source tests `self.uid.is_some()` twice,
so a gid alone never triggers this branch), chown unless both uid and gid
already match, using `lchown` when the observed target is a symlink. -/
def File.chmod_chown (fs : Fs) (f : File) : FsRes :=
  match fs.metaOf f.target with
  | none => (.error "Can't modify file, file does not exist", [], fs)
  | some metadata =>
    let ownPart := fun (fs2 : Fs) =>
      if f.uid.isSome ∨ f.uid.isSome then
        if (∃ u, f.uid = some u ∧ u = metadata.uid) ∧
            (∃ g, f.gid = some g ∧ g = metadata.gid) then
          ((Except.ok ()) , ([] : List Op), fs2)
        else
          let op := Op.chownOp f.target f.uid f.gid (metadata.ftype = FType.symlink)
          (.ok (), [op], fs2.applyOp op)
      else (.ok (), [], fs2)
    if f.kind ≠ FileKind.symlink then
      match f.permissions with
      | some x =>
        if metadata.mode &&& 0o777 = x then (.ok (), [], fs)
        else
          let op := Op.setPerms f.target x
          seqFs (.ok (), [op], fs.applyOp op) ownPart
      | none => ownPart fs
    else ownPart fs

/-- Model of `File::symlink` (file_util.rs lines 270-287): best-effort
`mkdir` of the parent, canonicalize the source, create the symlink (the
primitive fails if the target exists), then `chmod_chown`. -/
def File.symlink (fs : Fs) (f : File) : FsRes :=
  match f.target.parent with
  | none => (.error "Failed to get parent directory", [], fs)
  | some par =>
    seqIgnore (mkdir fs par) (fun fs1 =>
      match f.source with
      | none => (.error "source unwrap on None", [], fs1)
      | some s =>
        match fs1.canonOf s with
        | none => (.error "canonicalize failed", [], fs1)
        | some cs =>
          match fs1.metaOf f.target with
          | some _ => (.error "File exists", [], fs1)
          | none =>
            let op := Op.mkSymlink cs f.target
            seqFs (.ok (), [op], fs1.applyOp op) (fun fs2 => File.chmod_chown fs2 f))

/-- Model of `File::copy` (file_util.rs lines 289-306): best-effort `mkdir`
of the parent, canonicalize the source, `fs::copy` the bytes (which fails
when the canonical source is not a regular file), then `chmod_chown`. -/
def File.copy (fs : Fs) (f : File) : FsRes :=
  match f.target.parent with
  | none => (.error "Failed to get parent directory", [], fs)
  | some par =>
    seqIgnore (mkdir fs par) (fun fs1 =>
      match f.source with
      | none => (.error "source unwrap on None", [], fs1)
      | some s =>
        match fs1.canonOf s with
        | none => (.error "canonicalize failed", [], fs1)
        | some cs =>
          match fs1.metaOf cs with
          | none => (.error "copy failed", [], fs1)
          | some ms =>
            if ms.ftype ≠ FType.regular then (.error "copy failed", [], fs1)
            else
              let op := Op.copyFile cs f.target
              seqFs (.ok (), [op], fs1.applyOp op) (fun fs2 => File.chmod_chown fs2 f))

/-- Model of `File::directory` (file_util.rs lines 308-313). -/
def File.directory (fs : Fs) (f : File) : FsRes :=
  seqFs (mkdir fs f.target) (fun fs1 => File.chmod_chown fs1 f)

/-- Model of `File::activate` (file_util.rs lines 44-80).  `fuel` bounds the
`prefix_move` backup chain (see `prefix_move`).  The two directory walkers
are emitted as opaque mutation events. -/
def File.activate (fuel : Nat) (fs : Fs) (f : File) (clobber_by_default : Bool)
    (pfx : String) : FsRes :=
  if f.missing_source then (.ok (), [Op.warnMissingSource f.target], fs)
  else
    let meta := fs.metaOf f.target
    let fm := { f with metadata := meta }
    let clobber := f.clobber.getD clobber_by_default
    let checkOk := match fm.check fs with
      | .ok true => true
      | _ => false
    if f.kind ≠ FileKind.recursiveSymlink ∧ checkOk = true then
      (.ok (), [Op.infoAlreadyCorrect f.target], fs)
    else
      let step1 : FsRes :=
        match meta with
        | some m =>
          if f.kind ≠ FileKind.recursiveSymlink ∧ f.kind ≠ FileKind.modify ∧
              f.kind ≠ FileKind.delete then
            if clobber then delete fs f.target m
            else prefix_move fuel fs f.target pfx
          else (.ok (), [], fs)
        | none => (.ok (), [], fs)
      seqFs step1 (fun fs1 =>
        match f.kind with
        | FileKind.directory => File.directory fs1 fm
        | FileKind.recursiveSymlink =>
          match f.source with
          | none => (.error "source unwrap on None", [], fs1)
          | some s => (.ok (), [Op.recursiveWalk s f.target], fs1)
        | FileKind.file => File.copy fs1 fm
        | FileKind.symlink => File.symlink fs1 fm
        | FileKind.modify => File.chmod_chown fs1 fm
        | FileKind.delete =>
          match meta with
          | none => (.error "metadata unwrap on None", [], fs1)
          | some m => delete fs1 f.target m)

/-- Model of `File::deactivate` (file_util.rs lines 81-115): skip when the
`deactivate` field is `false`; succeed when the target is gone; otherwise
(for non-recursive kinds) require the equivalence check before acting, and
dispatch on the kind. -/
def File.deactivate (fs : Fs) (f : File) : FsRes :=
  if f.deactivateFlag.getD true = false then (.ok (), [], fs)
  else
    let meta := fs.metaOf f.target
    let fm := { f with metadata := meta }
    match meta with
    | none => (.ok (), [Op.infoAlreadyDeleted f.target], fs)
    | some m =>
      let dispatch : FsRes :=
        match f.kind with
        | FileKind.delete => (.ok (), [], fs)
        | FileKind.modify => (.ok (), [], fs)
        | FileKind.directory => rmdir fs f.target
        | FileKind.recursiveSymlink =>
          if f.missing_source then
            (.error "Missing source", [Op.warnMissingSource f.target], fs)
          else
            match f.source with
            | none => (.error "source unwrap on None", [], fs)
            | some s => (.ok (), [Op.recursiveCleanup s f.target], fs)
        | FileKind.symlink => delete fs f.target m
        | FileKind.file => delete fs f.target m
      if f.kind ≠ FileKind.recursiveSymlink then
        match fm.check fs with
        | .error e => (.error e, [], fs)
        | .ok false => (.error "File is not the same as expected", [], fs)
        | .ok true => dispatch
      else dispatch

end FileUtil

namespace ManifestRs

/-- Entry kinds of the `manifest.rs` revision (manifest.rs lines 108-116). -/
inductive FileKind where
  | directory
  | copy
  | symlink
  | modify
  | delete
deriving DecidableEq, Repr

/-- Serialized manifest entry of the `manifest.rs` revision (lines 64-77).
Equality is the derived structural equality over all fields, exactly as the
Rust `PartialEq` derive used by `Manifest::diff`. -/
structure File where
  source : Option FsPath
  target : FsPath
  kind : FileKind
  clobber : Option Bool
  permissions : Option Nat
  uid : Option Nat
  gid : Option Nat
  deactivate : Option Bool
  follow_symlinks : Option Bool
deriving DecidableEq, Repr

instance : Inhabited File :=
  ⟨⟨none, ⟨[]⟩, FileKind.directory, none, none, none, none, none, none⟩⟩

/-- The `value` ranking of `File::cmp` (manifest.rs lines 81-89). -/
def value : FileKind → Nat
  | FileKind.directory => 1
  | FileKind.copy => 2
  | FileKind.symlink => 3
  | FileKind.modify => 4
  | FileKind.delete => 5

/-- Model of `File::cmp` (manifest.rs lines 79-100): same kind compares the
targets' ancestor counts, different kinds compare the kind ranking. -/
def File.cmp (a b : File) : Ordering :=
  if b.kind = a.kind then
    compare a.target.ancestorCount b.target.ancestorCount
  else
    compare (value a.kind) (value b.kind)

/-- The boolean "less or equal" induced by `File::cmp`, used for sorting. -/
def fileLe (a b : File) : Bool :=
  a.cmp b ≠ Ordering.gt

/-- Manifest of the `manifest.rs` revision (lines 47-52). -/
structure Manifest where
  files : List File
  clobber_by_default : Option Bool
  version : Nat
deriving DecidableEq, Repr

/-- Order in which `Manifest::activate` (lines 189-202) visits entries:
`self.files.sort()` (a stable sort by `File::cmp`), then forward
iteration. -/
def Manifest.activationOrder (m : Manifest) : List File :=
  m.files.mergeSort fileLe

/-- Order in which `Manifest::deactivate` (lines 204-215) visits entries:
the same sort, then reverse iteration. -/
def Manifest.deactivationOrder (m : Manifest) : List File :=
  (m.files.mergeSort fileLe).reverse

/-- Index of the first element satisfying `p` (Rust `Iterator::position`). -/
def findIndex (p : File → Bool) : List File → Option Nat
  | [] => none
  | x :: xs => if p x then some 0 else (findIndex p xs).map (· + 1)

/-- Model of `Vec::swap_remove i`: replace index `i` by the last element and
drop the last slot. -/
def swapRemove {α : Type} (l : List α) (i : Nat) : List α :=
  match l.getLast? with
  | none => []
  | some a => (l.set i a).dropLast

/-- The second matching rule of `Manifest::diff` (lines 225-231): a new
entry of kind Symlink or Copy with the same target. -/
def isUpdateMatch (o n : File) : Bool :=
  (n.kind = FileKind.symlink ∨ n.kind = FileKind.copy) ∧ n.target = o.target

/-- Outcome of the diff partition: the `updated_files` pairs, the
`same_files` list, the old entries kept for deactivation, and the new
entries left for activation. -/
structure DiffResult where
  updated : List (File × File)
  same : List File
  oldRemaining : List File
  newRemaining : List File
deriving DecidableEq, Repr

/-- Model of the partition loop of `Manifest::diff` (manifest.rs lines
217-241): walk the old entries in order; for each, look for a structurally
equal new entry first (it is `swap_remove`d and pushed onto `same_files`),
then for a Symlink/Copy new entry with the same target (the pair joins
`updated_files`); otherwise the old entry is retained for deactivation. -/
def diffGo : List File → List File → DiffResult
  | newFs, [] => ⟨[], [], [], newFs⟩
  | newFs, o :: os =>
    match findIndex (fun inner => inner = o) newFs with
    | some i =>
      let r := diffGo (swapRemove newFs i) os
      { r with same := newFs.getD i default :: r.same }
    | none =>
      match findIndex (fun inner => isUpdateMatch o inner) newFs with
      | some i =>
        let r := diffGo (swapRemove newFs i) os
        { r with updated := (o, newFs.getD i default) :: r.updated }
      | none =>
        let r := diffGo newFs os
        { r with oldRemaining := o :: r.oldRemaining }

/-- The diff partition of `Manifest::diff`, at the level of the two file
lists (`self.files` = new, `old_manifest.files` = old). -/
def diffPartition (newFs oldFs : List File) : DiffResult :=
  diffGo newFs oldFs

/-- One octal digit, as accepted by `u32::from_str_radix(_, 8)`. -/
def octDigit? (c : Char) : Option Nat :=
  if '0' ≤ c ∧ c ≤ '7' then some (c.toNat - '0'.toNat) else none

/-- Positional value of a digit string in base 8. -/
def octValue (cs : List Char) : Nat :=
  cs.foldl (fun a c => a * 8 + ((octDigit? c).getD 0) ) 0

/-- Base-8 accumulation, failing on the first non-octal character. -/
def parseOctalCore (cs : List Char) : Option Nat :=
  cs.foldl (fun acc c =>
    match acc, octDigit? c with
    | some v, some d => some (v * 8 + d)
    | _, _ => none) (some 0)

/-- Model of `deserialize_octal` (manifest.rs lines 54-62): a missing value
deserializes to `None`; otherwise the string goes through
`u32::from_str_radix(_, 8)`, which accepts an optional leading `+`, requires
at least one octal digit, fails on other characters, fails on values that do
not fit in a `u32` — and performs no masking of the parsed value. -/
def deserialize_octal (o : Option String) : Except String (Option Nat) :=
  match o with
  | none => .ok none
  | some s =>
    let cs := if s.toList.head? = some '+' then s.toList.tail else s.toList
    if cs.isEmpty then .error "cannot parse integer from empty string"
    else
      match parseOctalCore cs with
      | none => .error "invalid digit found in string"
      | some v =>
        if v < 2 ^ 32 then .ok (some v)
        else .error "number too large to fit in target type"

end ManifestRs

section DeactivateClaims

open FileUtil

instance {ε α : Type} [DecidableEq ε] [DecidableEq α] :
    DecidableEq (Except ε α) := fun a b =>
  match a, b with
  | .ok x, .ok y =>
    if h : x = y then isTrue (by rw [h]) else isFalse (by simp [h])
  | .error x, .error y =>
    if h : x = y then isTrue (by rw [h]) else isFalse (by simp [h])
  | .ok _, .error _ => isFalse (by simp)
  | .error _, .ok _ => isFalse (by simp)

/-- For a `Delete` or `Modify` entry carrying a metadata snapshot, the
equivalence check never reports an error. -/
theorem check_ok_of_delete_modify (fs : Fs) (f : FileUtil.File) (m : FMeta)
    (hm : f.metadata = some m)
    (hk : f.kind = FileKind.delete ∨ f.kind = FileKind.modify) :
    ∃ b, FileUtil.File.check fs f = .ok b := by
  rcases hk with h | h
  · simp [FileUtil.File.check, hm, h]
  · simp only [FileUtil.File.check, hm, h]
    repeat' split
    all_goals first
      | exact ⟨_, rfl⟩
      | simp_all

/-- The five entry kinds of the specification's data model (the newest
revision); the extra `recursiveSymlink` kind of the `file_util.rs` revision
is outside the spec's universe of entries. -/
def FileUtil.File.specKind (f : FileUtil.File) : Prop :=
  f.kind = FileKind.directory ∨ f.kind = FileKind.file ∨
  f.kind = FileKind.symlink ∨ f.kind = FileKind.modify ∨
  f.kind = FileKind.delete

theorem specKind_ne_recursive {f : FileUtil.File} (h : f.specKind) :
    f.kind ≠ FileKind.recursiveSymlink := by
  rcases h with h | h | h | h | h <;> simp [h]

/-- C4 (amended): for every entry of one of the spec's five kinds whose
`deactivate` field is not `false`, if the target exists but the equivalence
check returns false, `deactivate` fails with "File is not the same as
expected" and performs no filesystem operation: the trace is empty and the
state is returned unchanged. -/
theorem c4_deactivate_mismatch (fs : Fs) (f : FileUtil.File) (m : FMeta)
    (hkind : f.specKind)
    (hflag : f.deactivateFlag.getD true = true)
    (hmeta : fs.metaOf f.target = some m)
    (hcheck : FileUtil.File.check fs { f with metadata := some m } = .ok false) :
    FileUtil.File.deactivate fs f =
      (.error "File is not the same as expected", [], fs) := by
  have hne := specKind_ne_recursive hkind
  simp only [FileUtil.File.deactivate, hflag, hmeta, hne, hcheck]
  simp [hne]

/-- Witness for C4 at a concrete input: a `delete` entry whose target still
exists; the check is false, so deactivation refuses with the exact error and
an empty trace. -/
def c4File : FileUtil.File :=
  ⟨none, ⟨["x"]⟩, FileKind.delete, none, none, none, none, none, none⟩

def c4Fs : Fs :=
  ⟨[(⟨["x"]⟩, ⟨FType.regular, 0o644, 0, 0⟩)], [], [], [], 0, 0⟩

theorem c4_witness :
    Fs.metaOf c4Fs c4File.target = some ⟨FType.regular, 0o644, 0, 0⟩ ∧
    FileUtil.File.deactivate c4Fs c4File =
      (.error "File is not the same as expected", [], c4Fs) :=
  ⟨by decide,
   c4_deactivate_mismatch c4Fs c4File ⟨FType.regular, 0o644, 0, 0⟩
     (Or.inr (Or.inr (Or.inr (Or.inr rfl)))) (by decide) (by decide) (by decide)⟩

/-- Counterexample to C4 as stated: an entry whose serialized `deactivate`
field is `false` has an existing target and a failing equivalence check, yet
`deactivate` returns success instead of the claimed error (the flag guard
precedes the check). -/
def c4cFile : FileUtil.File :=
  ⟨none, ⟨["x"]⟩, FileKind.delete, none, none, none, none, some false, none⟩

theorem c4_counterexample :
    Fs.metaOf c4Fs c4cFile.target ≠ none ∧
    FileUtil.File.check c4Fs { c4cFile with metadata := Fs.metaOf c4Fs c4cFile.target } =
      .ok false ∧
    (FileUtil.File.deactivate c4Fs c4cFile).1 ≠
      .error "File is not the same as expected" := by
  refine ⟨by decide, by decide, by decide⟩

/-- C5 (amended): deactivation of a `Delete` or `Modify` entry never touches
the filesystem — the state comes back unchanged and the trace holds no
mutation — and it succeeds exactly when the entry is flagged
non-deactivatable, or the target is absent, or the equivalence check passes;
a `Delete` entry whose target still exists (or a `Modify` entry with
mismatched permissions/uid/gid) instead fails with the mismatch error. -/
theorem c5_deactivate_delete_modify (fs : Fs) (f : FileUtil.File)
    (hkind : f.kind = FileKind.delete ∨ f.kind = FileKind.modify) :
    ((FileUtil.File.deactivate fs f).2.2 = fs ∧
      ((FileUtil.File.deactivate fs f).2.1.filter Op.isMutation) = []) ∧
    ((FileUtil.File.deactivate fs f).1 = .ok () ↔
      (f.deactivateFlag.getD true = false ∨ fs.metaOf f.target = none ∨
        FileUtil.File.check fs { f with metadata := fs.metaOf f.target } = .ok true)) := by
  have hne : f.kind ≠ FileKind.recursiveSymlink := by
    rcases hkind with h | h <;> simp [h]
  rcases hflag : f.deactivateFlag.getD true with _ | _
  · simp [FileUtil.File.deactivate, hflag]
  · rcases hmeta : fs.metaOf f.target with _ | m
    · simp [FileUtil.File.deactivate, hflag, hmeta, Op.isMutation]
    · obtain ⟨b, hchk⟩ :=
        check_ok_of_delete_modify fs { f with metadata := some m } m rfl hkind
      rcases b with _ | _
      · simp [FileUtil.File.deactivate, hflag, hmeta, hne, hchk]
      · rcases hkind with h | h <;>
        · simp only [h] at hchk
          simp [FileUtil.File.deactivate, hflag, hmeta, hne, hchk, h]

end DeactivateClaims

def c5File : FileUtil.File :=
  ⟨none, ⟨["y"]⟩, FileUtil.FileKind.modify, none, none, none, none, none, none⟩

def c5Fs : Fs := ⟨[], [], [], [], 0, 0⟩

theorem c5_witness :
    (c5File.kind = FileUtil.FileKind.delete ∨
      c5File.kind = FileUtil.FileKind.modify) ∧
    (((FileUtil.File.deactivate c5Fs c5File).2.2 = c5Fs ∧
      ((FileUtil.File.deactivate c5Fs c5File).2.1.filter Op.isMutation) = []) ∧
    ((FileUtil.File.deactivate c5Fs c5File).1 = .ok () ↔
      (c5File.deactivateFlag.getD true = false ∨ Fs.metaOf c5Fs c5File.target = none ∨
        FileUtil.File.check c5Fs
          { c5File with metadata := Fs.metaOf c5Fs c5File.target } = .ok true))) :=
  ⟨Or.inr rfl, c5_deactivate_delete_modify c5Fs c5File (Or.inr rfl)⟩

/-- Counterexample to C5 as stated: a `Delete` entry whose target currently
exists.  The claim says deactivation returns success regardless of whether
the target exists, but the equivalence check (false for an existing target
of a `Delete` entry) makes `deactivate` return the mismatch error. -/
def c5cFile : FileUtil.File :=
  ⟨none, ⟨["z"]⟩, FileUtil.FileKind.delete, none, none, none, none, none, none⟩

def c5cFs : Fs :=
  ⟨[(⟨["z"]⟩, ⟨FType.regular, 0o644, 0, 0⟩)], [], [], [], 0, 0⟩

theorem c5_counterexample :
    Fs.metaOf c5cFs c5cFile.target ≠ none ∧
    (FileUtil.File.deactivate c5cFs c5cFile).1 ≠ .ok () := by
  refine ⟨by decide, by decide⟩

section ActivateClaims

open FileUtil

/-- If the equivalence check (on the freshly observed metadata) passes, the
source preflight cannot have fired: a missing-source entry makes the check
fail or error instead. -/
theorem missing_source_false_of_check_true (fs : Fs) (f : FileUtil.File)
    (hchk : FileUtil.File.check fs { f with metadata := fs.metaOf f.target } = .ok true) :
    f.missing_source = false := by
  by_contra hms
  have h : f.missing_source = true := by
    rcases h : f.missing_source with _ | _
    · exact absurd h hms
    · rfl
  have h' : (f.kind = FileKind.symlink ∨ f.kind = FileKind.file ∨
      f.kind = FileKind.recursiveSymlink) ∧ f.source = none := by
    simpa [FileUtil.File.missing_source] using h
  obtain ⟨hk, hs⟩ := h'
  rcases hm : fs.metaOf f.target with _ | m
  · rw [hm] at hchk
    rcases hk with h | h | h <;> simp [FileUtil.File.check, h] at hchk
  · rw [hm] at hchk
    rcases hk with h | h | h <;> simp [FileUtil.File.check, h, hs] at hchk

/-- C9: activating an entry (of one of the spec's five kinds) that is
already satisfied — its equivalence check on the observed target returns
true — logs "already correct" and returns success, with no further trace
and the filesystem state unchanged. -/
theorem c9_activate_idempotent (fuel : Nat) (fs : Fs) (f : FileUtil.File)
    (cbd : Bool) (pfx : String)
    (hkind : f.specKind)
    (hchk : FileUtil.File.check fs { f with metadata := fs.metaOf f.target } = .ok true) :
    FileUtil.File.activate fuel fs f cbd pfx =
      (.ok (), [Op.infoAlreadyCorrect f.target], fs) := by
  have hne := specKind_ne_recursive hkind
  have hms := missing_source_false_of_check_true fs f hchk
  simp [FileUtil.File.activate, hms, hchk, hne]

def c9File : FileUtil.File :=
  ⟨none, ⟨["w"]⟩, FileUtil.FileKind.delete, none, none, none, none, none, none⟩

def c9Fs : Fs := ⟨[], [], [], [], 0, 0⟩

theorem c9_witness :
    FileUtil.File.check c9Fs { c9File with metadata := Fs.metaOf c9Fs c9File.target } =
      .ok true ∧
    FileUtil.File.activate 5 c9Fs c9File true ".backup-" =
      (.ok (), [Op.infoAlreadyCorrect c9File.target], c9Fs) :=
  ⟨by decide,
   c9_activate_idempotent 5 c9Fs c9File true ".backup-"
     (Or.inr (Or.inr (Or.inr (Or.inr rfl)))) (by decide)⟩

/-- C6 (amended): for a Copy or Symlink entry, activation succeeds as a
no-op, emitting only the missing-source warning, when the `source` field is
absent.  (The other two preflight cases of the claim do not exist in the
code; see the counterexample.) -/
theorem c6_activate_source_field_absent (fuel : Nat) (fs : Fs)
    (f : FileUtil.File) (cbd : Bool) (pfx : String)
    (hkind : f.kind = FileKind.file ∨ f.kind = FileKind.symlink)
    (hsrc : f.source = none) :
    FileUtil.File.activate fuel fs f cbd pfx =
      (.ok (), [Op.warnMissingSource f.target], fs) := by
  rcases hkind with h | h <;>
    simp [FileUtil.File.activate, FileUtil.File.missing_source, hsrc, h]

def c6File : FileUtil.File :=
  ⟨none, ⟨["t", "f"]⟩, FileUtil.FileKind.file, none, none, none, none, none, none⟩

theorem c6_witness :
    c6File.source = none ∧
    FileUtil.File.activate 5 c9Fs c6File true ".backup-" =
      (.ok (), [Op.warnMissingSource c6File.target], c9Fs) :=
  ⟨rfl,
   c6_activate_source_field_absent 5 c9Fs c6File true ".backup-" (Or.inl rfl) rfl⟩

/-- Counterexample to C6 as stated: a Copy entry whose `source` field is
present but whose source path does not exist.  The claim says activation
warns and succeeds as a no-op; instead the preflight does not fire, the
copy step runs, creates the missing parent directory (a filesystem
mutation), and activation fails on canonicalizing the source. -/
def c6cFile : FileUtil.File :=
  ⟨some ⟨["s", "f"]⟩, ⟨["t", "f"]⟩, FileUtil.FileKind.file, none, none, none,
    none, none, none⟩

def c6cFs : Fs := ⟨[], [], [], [], 0, 0⟩

theorem c6_counterexample :
    Fs.metaOf c6cFs ⟨["s", "f"]⟩ = none ∧
    (FileUtil.File.activate 5 c6cFs c6cFile true ".backup-").1 =
      .error "canonicalize failed" ∧
    ((FileUtil.File.activate 5 c6cFs c6cFile true ".backup-").2.1.filter
      Op.isMutation) ≠ [] := by
  refine ⟨by decide, by decide, by decide⟩

end ActivateClaims

section OctalClaims

open ManifestRs

theorem parseOctalCore_aux (cs : List Char) (v : Nat)
    (h : ∀ c ∈ cs, (octDigit? c).isSome) :
    cs.foldl (fun acc c =>
      match acc, octDigit? c with
      | some w, some d => some (w * 8 + d)
      | _, _ => none) (some v) =
    some (cs.foldl (fun a c => a * 8 + ((octDigit? c).getD 0)) v) := by
  induction cs generalizing v with
  | nil => rfl
  | cons c rest ih =>
    have hc : (octDigit? c).isSome := h c (List.mem_cons_self c rest)
    obtain ⟨d, hd⟩ := Option.isSome_iff_exists.mp hc
    simp only [List.foldl_cons, hd, Option.getD_some]
    exact ih (v * 8 + d) (fun x hx => h x (List.mem_cons_of_mem c hx))

theorem parseOctalCore_eq (cs : List Char)
    (h : ∀ c ∈ cs, (octDigit? c).isSome) :
    parseOctalCore cs = some (octValue cs) :=
  parseOctalCore_aux cs 0 h

/-- C10 (amended): the octal deserializer parses any nonempty string of
octal digits whose value fits in a `u32` to its full positional value — no
masking to the lower 9 bits — while the equivalence check compares stored
permissions against the observed mode masked with `0o777`; hence an entry
of kind Copy, Directory or Modify whose parsed permissions exceed `0o777`
is never reported as already correct.  (For a Symlink entry permissions are
not compared at all; see the counterexample.) -/
theorem c10_octal_no_mask :
    (∀ (s : String), s.toList ≠ [] →
      (∀ c ∈ s.toList, (octDigit? c).isSome) →
      octValue s.toList < 2 ^ 32 →
      deserialize_octal (some s) = .ok (some (octValue s.toList))) ∧
    (∀ (fs : Fs) (f : FileUtil.File) (p : Nat),
      f.permissions = some p → 0o777 < p →
      (f.kind = FileUtil.FileKind.file ∨ f.kind = FileUtil.FileKind.directory ∨
        f.kind = FileUtil.FileKind.modify) →
      FileUtil.File.check fs f ≠ .ok true) := by
  constructor
  · intro s hne hdig hlt
    rcases hs : s.toList with _ | ⟨c, rest⟩
    · exact absurd hs hne
    · rw [hs] at hdig hlt
      have hc : (octDigit? c).isSome := hdig c (List.mem_cons_self c rest)
      have hcplus : c ≠ '+' := by
        intro hplus
        rw [hplus] at hc
        simp [octDigit?] at hc
      simp only [deserialize_octal, hs, List.head?_cons, Option.some.injEq]
      rw [if_neg hcplus]
      simp [parseOctalCore_eq (c :: rest) hdig, hlt]
      exact lt_of_lt_of_le hlt (by norm_num)
  · intro fs f p hp hgt hk
    rcases hm : f.metadata with _ | m
    · rcases hk with h | h | h <;> simp [FileUtil.File.check, hm, h]
    · have hmask : m.mode &&& 0o777 < p := lt_of_le_of_lt Nat.and_le_right hgt
      have hne : ∃ q, f.permissions = some q ∧ q ≠ m.mode &&& 0o777 :=
        ⟨p, hp, by omega⟩
      rcases hk with h | h | h
      · by_cases hsrc : f.source = none
        · simp [FileUtil.File.check, hm, h, hsrc]
        · simp [FileUtil.File.check, hm, h, hsrc, hne]
      · simp [FileUtil.File.check, hm, h, hne]
      · simp [FileUtil.File.check, hm, h, hne]

theorem c10_witness :
    ("1644".toList ≠ [] ∧ octValue "1644".toList = 932) ∧
    ManifestRs.deserialize_octal (some "1644") = .ok (some (octValue "1644".toList)) :=
  ⟨⟨by decide, by decide⟩,
   c10_octal_no_mask.1 "1644" (by decide) (by decide) (by decide)⟩

/-- Counterexample to C10 as stated: a Symlink entry with permissions
parsed from "1644" (value 932 > 0o777).  The equivalence check never
compares permissions for Symlink entries, so with matching canonical paths
the entry is reported as already correct, contradicting "can never be
reported as already correct". -/
def c10cFile : FileUtil.File :=
  ⟨some ⟨["src"]⟩, ⟨["tgt"]⟩, FileUtil.FileKind.symlink, none, some 932, none,
    none, none, some ⟨FType.symlink, 0o777, 0, 0⟩⟩

def c10cFs : Fs :=
  ⟨[], [(⟨["tgt"]⟩, ⟨["c"]⟩), (⟨["src"]⟩, ⟨["c"]⟩)], [], [], 0, 0⟩

theorem c10_counterexample :
    ManifestRs.deserialize_octal (some "1644") = .ok (some 932) ∧
    0o777 < 932 ∧
    c10cFile.permissions = some 932 ∧
    FileUtil.File.check c10cFs c10cFile = .ok true := by
  refine ⟨by decide, by decide, by decide, by decide⟩

end OctalClaims

section CheckCopyClaim

open FileUtil

/-- C8 (amended): for a Copy entry with a source, the equivalence check
returns true exactly when the observed target is a regular file, permissions
match when set, uid/gid match when set, and the whole-file hash of the
target equals that of the source.  The code performs no size comparison and
no size prefilter: it hashes directly (see the counterexample). -/
theorem c8_check_copy_iff (fs : Fs) (f : FileUtil.File) (s : FsPath)
    (hk : f.kind = FileUtil.FileKind.file) (hs : f.source = some s) :
    FileUtil.File.check fs f = .ok true ↔
      ∃ m, f.metadata = some m ∧
        m.ftype = FType.regular ∧
        (∀ p, f.permissions = some p → p = m.mode &&& 0o777) ∧
        (∀ u, f.uid = some u → u = m.uid) ∧
        (∀ g, f.gid = some g → g = m.gid) ∧
        ∃ h, fs.hashOf f.target = some h ∧ fs.hashOf s = some h := by
  rcases hm : f.metadata with _ | m
  · simp [FileUtil.File.check, hm, hk]
  · have hnf : FileUtil.File.check fs f =
        if ∃ p, f.permissions = some p ∧ p ≠ m.mode &&& 0o777 then .ok false
        else if ∃ u, f.uid = some u ∧ u ≠ m.uid then .ok false
        else if ∃ g, f.gid = some g ∧ g ≠ m.gid then .ok false
        else if m.ftype ≠ FType.regular then .ok false
        else
          match fs.hashOf f.target, fs.hashOf s with
          | some ht, some hsv => .ok (ht = hsv)
          | none, _ => .error "Failed to hash file"
          | _, none => .error "Failed to hash file" := by
      simp [FileUtil.File.check, hm, hk, hs]
    rw [hnf]
    split_ifs with h1 h2 h3 h4
    · obtain ⟨q, hq, hqne⟩ := h1
      constructor
      · intro h; simp at h
      · rintro ⟨m', hm', -, hper, -, -, -⟩
        obtain rfl : m = m' := by injection hm'
        exact absurd (hper q hq) hqne
    · obtain ⟨u, hu', hune⟩ := h2
      constructor
      · intro h; simp at h
      · rintro ⟨m', hm', -, -, hu, -, -⟩
        obtain rfl : m = m' := by injection hm'
        exact absurd (hu u hu') hune
    · obtain ⟨g, hg', hgne⟩ := h3
      constructor
      · intro h; simp at h
      · rintro ⟨m', hm', -, -, -, hg, -⟩
        obtain rfl : m = m' := by injection hm'
        exact absurd (hg g hg') hgne
    · constructor
      · intro h; simp at h
      · rintro ⟨m', hm', hreg, -⟩
        obtain rfl : m = m' := by injection hm'
        exact absurd hreg h4
    · push_neg at h1 h2 h3 h4
      rcases hht : fs.hashOf f.target with _ | ht
      · rcases hhs : fs.hashOf s with _ | hsv <;> simp [hht, hhs]
      · rcases hhs : fs.hashOf s with _ | hsv
        · simp [hht, hhs]
        · simp only [hht, hhs]
          constructor
          · intro h
            have heq : ht = hsv := by simpa using h
            exact ⟨m, rfl, h4, fun p hp => h1 p hp,
              fun u hu => h2 u hu, fun g hg => h3 g hg,
              ⟨ht, rfl, by rw [heq]⟩⟩
          · rintro ⟨m', hm', -, -, -, -, hv, hv1, hv2⟩
            obtain rfl : ht = hv := by injection hv1
            obtain rfl : hsv = ht := by injection hv2
            simp

end CheckCopyClaim

def c8wFile : FileUtil.File :=
  ⟨some ⟨["s"]⟩, ⟨["t"]⟩, FileUtil.FileKind.file, none, some 0o644, some 0,
    some 0, none, some ⟨FType.regular, 0o100644, 0, 0⟩⟩

def c8wFs : Fs := ⟨[], [], [(⟨["t"]⟩, 42), (⟨["s"]⟩, 42)], [], 0, 0⟩

theorem c8_witness :
    FileUtil.File.check c8wFs c8wFile = .ok true :=
  (c8_check_copy_iff c8wFs c8wFile ⟨["s"]⟩ rfl rfl).mpr
    ⟨⟨FType.regular, 0o100644, 0, 0⟩, rfl, rfl, by decide, by decide, by decide,
      ⟨42, by decide, by decide⟩⟩

/-- Counterexample to C8 as stated: target and source whose recorded sizes
differ (1 versus 2 bytes) while their whole-file hashes coincide.  The check
reports the entry equivalent, so "equivalent iff ... size matches source
..." is false of the code: no size comparison (and hence no size prefilter)
is performed. -/
def c8cFile : FileUtil.File :=
  ⟨some ⟨["s"]⟩, ⟨["t"]⟩, FileUtil.FileKind.file, none, none, none, none, none,
    some ⟨FType.regular, 0o644, 0, 0⟩⟩

def c8cFs : Fs :=
  ⟨[], [], [(⟨["t"]⟩, 7), (⟨["s"]⟩, 7)], [(⟨["t"]⟩, 1), (⟨["s"]⟩, 2)], 0, 0⟩

theorem c8_counterexample :
    FileUtil.File.check c8cFs c8cFile = .ok true ∧
    Fs.sizeOf c8cFs c8cFile.target ≠ Fs.sizeOf c8cFs ⟨["s"]⟩ := by
  refine ⟨by decide, by decide⟩

section OrderingClaim

open ManifestRs

theorem natCompare_self (x : Nat) : compare x x = Ordering.eq := by
  rw [compare_eq_iff_eq]

theorem natCompare_swap (x y : Nat) : compare x y = (compare y x).swap := by
  rcases lt_trichotomy x y with h | h | h
  · rw [compare_lt_iff_lt.mpr h, compare_gt_iff_gt.mpr h]
    rfl
  · rw [h, natCompare_self]
    rfl
  · rw [compare_gt_iff_gt.mpr h, compare_lt_iff_lt.mpr h]
    rfl

theorem natCompare_ne_gt (x y : Nat) : compare x y ≠ Ordering.gt ↔ x ≤ y := by
  rw [Ne, compare_gt_iff_gt, not_lt]

theorem value_inj : ∀ k1 k2 : ManifestRs.FileKind,
    value k1 = value k2 → k1 = k2 := by
  intro k1 k2
  cases k1 <;> cases k2 <;> simp [value]

/-- C3: the entry comparison of `File::cmp` is a lawful total ordering
(reflexive, antisymmetric in the comparator sense, transitive in its induced
"not greater" relation) whose kind ranks are
Directory < Copy < Symlink < Modify < Delete; entries of equal kind are
compared by the ancestor count of their targets; and the deactivation walk
is exactly the reverse of the activation walk over the same sorted list. -/
theorem c3_ordering :
    (value FileKind.directory < value FileKind.copy ∧
      value FileKind.copy < value FileKind.symlink ∧
      value FileKind.symlink < value FileKind.modify ∧
      value FileKind.modify < value FileKind.delete) ∧
    (∀ a b : ManifestRs.File, a.kind ≠ b.kind →
      a.cmp b = compare (value a.kind) (value b.kind)) ∧
    (∀ a b : ManifestRs.File, a.kind = b.kind →
      a.cmp b = compare a.target.ancestorCount b.target.ancestorCount) ∧
    (∀ a : ManifestRs.File, a.cmp a = Ordering.eq) ∧
    (∀ a b : ManifestRs.File, a.cmp b = (b.cmp a).swap) ∧
    (∀ a b c : ManifestRs.File, a.cmp b ≠ Ordering.gt → b.cmp c ≠ Ordering.gt →
      a.cmp c ≠ Ordering.gt) ∧
    (∀ m : Manifest, m.deactivationOrder = m.activationOrder.reverse) := by
  refine ⟨by decide, ?_, ?_, ?_, ?_, ?_, fun m => rfl⟩
  · intro a b h
    rw [ManifestRs.File.cmp, if_neg (fun hh => h hh.symm)]
  · intro a b h
    rw [ManifestRs.File.cmp, if_pos h.symm]
  · intro a
    rw [ManifestRs.File.cmp, if_pos rfl, natCompare_self]
  · intro a b
    by_cases h : b.kind = a.kind
    · rw [ManifestRs.File.cmp, if_pos h, ManifestRs.File.cmp, if_pos h.symm,
        natCompare_swap]
    · rw [ManifestRs.File.cmp, if_neg h, ManifestRs.File.cmp,
        if_neg (fun hh => h hh.symm), natCompare_swap]
  · intro a b c hab hbc
    by_cases h1 : a.kind = b.kind <;> by_cases h2 : b.kind = c.kind
    · rw [ManifestRs.File.cmp, if_pos h1.symm, natCompare_ne_gt] at hab
      rw [ManifestRs.File.cmp, if_pos h2.symm, natCompare_ne_gt] at hbc
      rw [ManifestRs.File.cmp, if_pos (h1.trans h2).symm, natCompare_ne_gt]
      exact le_trans hab hbc
    · rw [ManifestRs.File.cmp, if_pos h1.symm, natCompare_ne_gt] at hab
      rw [ManifestRs.File.cmp, if_neg (fun hh => h2 hh.symm),
        natCompare_ne_gt] at hbc
      have hac : a.kind ≠ c.kind := fun hh => h2 (h1.symm.trans hh)
      rw [ManifestRs.File.cmp, if_neg (fun hh => hac hh.symm), natCompare_ne_gt]
      rw [congrArg value h1]
      exact hbc
    · rw [ManifestRs.File.cmp, if_neg (fun hh => h1 hh.symm),
        natCompare_ne_gt] at hab
      rw [ManifestRs.File.cmp, if_pos h2.symm, natCompare_ne_gt] at hbc
      have hac : a.kind ≠ c.kind := fun hh => h1 (hh.trans h2.symm)
      rw [ManifestRs.File.cmp, if_neg (fun hh => hac hh.symm), natCompare_ne_gt]
      rw [← congrArg value h2]
      exact hab
    · rw [ManifestRs.File.cmp, if_neg (fun hh => h1 hh.symm),
        natCompare_ne_gt] at hab
      rw [ManifestRs.File.cmp, if_neg (fun hh => h2 hh.symm),
        natCompare_ne_gt] at hbc
      by_cases hac : a.kind = c.kind
      · exfalso
        have hva : value a.kind = value c.kind := congrArg value hac
        have : value a.kind = value b.kind := le_antisymm hab (hva ▸ hbc)
        exact h1 (value_inj _ _ this)
      · rw [ManifestRs.File.cmp, if_neg (fun hh => hac hh.symm), natCompare_ne_gt]
        exact le_trans hab hbc

def c3a : ManifestRs.File :=
  ⟨none, ⟨["a"]⟩, FileKind.directory, none, none, none, none, none, none⟩

def c3b : ManifestRs.File :=
  ⟨none, ⟨["b", "c"]⟩, FileKind.copy, none, none, none, none, none, none⟩

theorem c3_witness :
    c3a.kind ≠ c3b.kind ∧
    ManifestRs.File.cmp c3a c3b =
      compare (value c3a.kind) (value c3b.kind) :=
  ⟨by decide, c3_ordering.2.1 c3a c3b (by decide)⟩

end OrderingClaim

section PrefixMoveClaim

theorem alookup_aset {β : Type} (l : List (FsPath × β)) (k t : FsPath) (v : β) :
    alookup (aset l k v) t = if k = t then some v else alookup l t := by
  induction l with
  | nil => simp [aset, alookup]
  | cons e rest ih =>
    obtain ⟨k', v'⟩ := e
    by_cases h : k' = k
    · subst h
      by_cases h2 : k' = t <;> simp [aset, alookup, h2]
    · simp only [aset, if_neg h, alookup]
      by_cases h2 : k' = t
      · subst h2
        have hne : ¬ k = k' := fun hh => h hh.symm
        simp [alookup, hne]
      · simp [alookup, h2, ih]

theorem alookup_adel {β : Type} (l : List (FsPath × β)) (k t : FsPath) :
    alookup (adel l k) t = if k = t then none else alookup l t := by
  induction l with
  | nil => simp [adel, alookup]
  | cons e rest ih =>
    obtain ⟨k', v'⟩ := e
    simp only [adel, ne_eq, decide_not] at ih
    by_cases h : k' = k
    · subst h
      by_cases h2 : k' = t
      · subst h2
        simpa [adel, ne_eq, decide_not, List.filter_cons, alookup] using ih
      · simpa [adel, ne_eq, decide_not, List.filter_cons, alookup, h2] using ih
    · by_cases h2 : k' = t
      · subst h2
        have hne : ¬ k = k' := fun hh => h hh.symm
        simp [adel, ne_eq, decide_not, List.filter_cons, alookup, h, hne]
      · simp [adel, ne_eq, decide_not, List.filter_cons, alookup, h, h2, ih]

/-- Effect of a rename event on the metadata oracle, when the moved path is
present: the destination now answers with the moved metadata, the moved
path is gone, everything else is untouched. -/
theorem metaOf_rename_of_present (fs : Fs) (src dst t : FsPath) (m : FMeta)
    (h : fs.metaOf src = some m) :
    (fs.applyOp (Op.rename src dst)).metaOf t =
      if t = dst then some m else if t = src then none else fs.metaOf t := by
  simp only [Fs.applyOp, Fs.metaOf] at h ⊢
  rw [h]
  simp only [alookup_aset, alookup_adel]
  by_cases hd : dst = t
  · subst hd
    simp
  · have hd' : ¬ t = dst := fun hh => hd hh.symm
    simp only [if_neg hd, if_neg hd']
    by_cases hsx : src = t
    · subst hsx
      simp
    · have hs' : ¬ t = src := fun hh => hsx hh.symm
      simp [hsx, hs']

/-- Every event `prefix_move` ever emits is a rename: it never removes
anything. -/
theorem prefix_move_ops_rename (fuel : Nat) :
    ∀ (fs : Fs) (path : FsPath) (pfx : String),
      ∀ op ∈ (prefix_move fuel fs path pfx).2.1, ∃ a b, op = Op.rename a b := by
  induction fuel with
  | zero =>
    intro fs path pfx op hop
    simp [prefix_move] at hop
  | succ n ih =>
    intro fs path pfx op hop
    simp only [prefix_move] at hop
    rcases h1 : fs.metaOf path with _ | m
    · simp [h1] at hop
    · simp only [h1] at hop
      rcases h2 : fs.canonOf path with _ | cpath
      · simp [h2] at hop
      · simp only [h2] at hop
        rcases h3 : cpath.fileName with _ | base
        · simp [h3] at hop
        · simp only [h3] at hop
          rcases h4 : cpath.parent with _ | par
          · simp [h4] at hop
          · simp only [h4] at hop
            rcases h5 : fs.metaOf (par.join (pfx ++ base)) with _ | m2
            · simp [h5] at hop
              subst hop
              exact ⟨_, _, rfl⟩
            · simp only [h5] at hop
              rcases hr : prefix_move n fs (par.join (pfx ++ base)) pfx with
                ⟨res, tr1, fs1⟩
              simp only [hr] at hop
              rcases res with e | u
              · simp [seqFs] at hop
                have hh := ih fs (par.join (pfx ++ base)) pfx op
                rw [hr] at hh
                exact hh hop
              · simp [seqFs] at hop
                rcases hop with hop | hop
                · have hh := ih fs (par.join (pfx ++ base)) pfx op
                  rw [hr] at hh
                  exact hh hop
                · subst hop
                  exact ⟨_, _, rfl⟩

end PrefixMoveClaim

/-- Default of the `--prefix` option of the Activate and Diff subcommands
(args.rs lines 30 and 38). -/
def defaultBackupPrefixSetting : String := ".backup-"

/-- C7 (amended): when `path` exists and canonicalizes to `cpath`, a
successful `prefix_move` renames `cpath` onto the sibling
`parent(cpath) / (pfx ++ basename(cpath))`; when that destination already
exists it is first moved aside by the same prefixing procedure (a recursive
`prefix_move`) — never removed: every emitted operation is a rename, and the
final one is the rename of `cpath` onto the destination.  The stored default
prefix is `.backup-`. -/
theorem c7_prefix_move_moves_aside (fuel : Nat) (fs : Fs) (path : FsPath)
    (pfx : String) (m : FMeta) (cpath : FsPath) (base : String) (par : FsPath)
    (res : Except String Unit) (tr : List Op) (fs' : Fs)
    (hm : fs.metaOf path = some m)
    (hc : fs.canonOf path = some cpath)
    (hbase : cpath.fileName = some base)
    (hpar : cpath.parent = some par)
    (hrun : prefix_move fuel fs path pfx = (res, tr, fs'))
    (hok : res = .ok ()) :
    defaultBackupPrefixSetting = ".backup-" ∧
    (∀ op ∈ tr, ∃ a b, op = Op.rename a b) ∧
    tr.getLast? = some (Op.rename cpath (par.join (pfx ++ base))) ∧
    (fs.metaOf (par.join (pfx ++ base)) = none →
      tr = [Op.rename cpath (par.join (pfx ++ base))] ∧
      fs' = fs.applyOp (Op.rename cpath (par.join (pfx ++ base)))) ∧
    (∀ m2, fs.metaOf (par.join (pfx ++ base)) = some m2 →
      ∃ n tr1 fs1, fuel = n + 1 ∧
        prefix_move n fs (par.join (pfx ++ base)) pfx = (.ok (), tr1, fs1) ∧
        tr = tr1 ++ [Op.rename cpath (par.join (pfx ++ base))] ∧
        fs' = fs1.applyOp (Op.rename cpath (par.join (pfx ++ base)))) := by
  subst hok
  rcases fuel with _ | n
  · simp [prefix_move] at hrun
  · simp only [prefix_move, hm, hc, hbase, hpar] at hrun
    rcases h5 : fs.metaOf (par.join (pfx ++ base)) with _ | m2
    · rw [h5] at hrun
      obtain ⟨htr, hfs⟩ : tr = [Op.rename cpath (par.join (pfx ++ base))] ∧
          fs' = fs.applyOp (Op.rename cpath (par.join (pfx ++ base))) := by
        have h1 := congrArg (fun r => r.2.1) hrun
        have h2 := congrArg (fun r => r.2.2) hrun
        exact ⟨h1.symm, h2.symm⟩
      refine ⟨rfl, ?_, ?_, fun _ => ⟨htr, hfs⟩, ?_⟩
      · intro op hop
        rw [htr] at hop
        simp at hop
        subst hop
        exact ⟨_, _, rfl⟩
      · rw [htr]
        rfl
      · intro m2 hm2
        exact absurd hm2 (by simp)
    · rw [h5] at hrun
      rcases hr : prefix_move n fs (par.join (pfx ++ base)) pfx with ⟨res1, tr1, fs1⟩
      rw [hr] at hrun
      rcases res1 with e | u
      · exfalso
        have h1 := congrArg (fun r => r.1) hrun
        simp [seqFs] at h1
      · obtain ⟨htr, hfs⟩ : tr = tr1 ++ [Op.rename cpath (par.join (pfx ++ base))] ∧
            fs' = fs1.applyOp (Op.rename cpath (par.join (pfx ++ base))) := by
          have h1 := congrArg (fun r => r.2.1) hrun
          have h2 := congrArg (fun r => r.2.2) hrun
          simp [seqFs] at h1 h2
          exact ⟨h1.symm, h2.symm⟩
        refine ⟨rfl, ?_, ?_, ?_, ?_⟩
        · intro op hop
          rw [htr] at hop
          rcases List.mem_append.mp hop with hop | hop
          · have hh := prefix_move_ops_rename n fs (par.join (pfx ++ base)) pfx op
            rw [hr] at hh
            exact hh hop
          · simp at hop
            subst hop
            exact ⟨_, _, rfl⟩
        · rw [htr]
          exact List.getLast?_concat _
        · intro habs
          exact absurd habs (by simp)
        · intro m3 _
          exact ⟨n, tr1, fs1, rfl, hr, htr, hfs⟩

def c7wFs : Fs :=
  ⟨[(⟨["a", "f"]⟩, ⟨FType.regular, 1, 0, 0⟩)],
   [(⟨["a", "f"]⟩, ⟨["a", "f"]⟩)], [], [], 0, 0⟩

theorem c7_witness :
    Fs.metaOf c7wFs ⟨["a", "f"]⟩ = some ⟨FType.regular, 1, 0, 0⟩ ∧
    (prefix_move 2 c7wFs ⟨["a", "f"]⟩ ".backup-").2.1.getLast? =
      some (Op.rename ⟨["a", "f"]⟩ (FsPath.join ⟨["a"]⟩ (".backup-" ++ "f"))) :=
  ⟨by decide,
   (c7_prefix_move_moves_aside 2 c7wFs ⟨["a", "f"]⟩ ".backup-"
      ⟨FType.regular, 1, 0, 0⟩ ⟨["a", "f"]⟩ "f" ⟨["a"]⟩
      (prefix_move 2 c7wFs ⟨["a", "f"]⟩ ".backup-").1
      (prefix_move 2 c7wFs ⟨["a", "f"]⟩ ".backup-").2.1
      (prefix_move 2 c7wFs ⟨["a", "f"]⟩ ".backup-").2.2
      (by decide) (by decide) (by decide) (by decide) rfl (by decide)).2.2.1⟩

/-- Counterexample to C7 as stated: `/a/f` exists and the prefixed
destination `/a/.backup-f` also exists.  The claim says the destination "is
removed first"; instead the code prefix-moves the destination itself, so
after the call its contents (mode marker 2) survive at
`/a/.backup-.backup-f`, and the emitted trace consists of two renames and no
removal at all. -/
def c7cFs : Fs :=
  ⟨[(⟨["a", "f"]⟩, ⟨FType.regular, 1, 0, 0⟩),
    (⟨["a", ".backup-f"]⟩, ⟨FType.regular, 2, 0, 0⟩)],
   [(⟨["a", "f"]⟩, ⟨["a", "f"]⟩),
    (⟨["a", ".backup-f"]⟩, ⟨["a", ".backup-f"]⟩)], [], [], 0, 0⟩

theorem c7_counterexample :
    (prefix_move 3 c7cFs ⟨["a", "f"]⟩ ".backup-").1 = .ok () ∧
    Fs.metaOf c7cFs ⟨["a", ".backup-f"]⟩ = some ⟨FType.regular, 2, 0, 0⟩ ∧
    (prefix_move 3 c7cFs ⟨["a", "f"]⟩ ".backup-").2.1 =
      [Op.rename ⟨["a", ".backup-f"]⟩ ⟨["a", ".backup-.backup-f"]⟩,
       Op.rename ⟨["a", "f"]⟩ ⟨["a", ".backup-f"]⟩] ∧
    Fs.metaOf (prefix_move 3 c7cFs ⟨["a", "f"]⟩ ".backup-").2.2
        ⟨["a", ".backup-.backup-f"]⟩ = some ⟨FType.regular, 2, 0, 0⟩ := by
  refine ⟨by decide, by decide, by decide, by decide⟩

section DiffClaim

open ManifestRs

theorem findIndex_some_spec {p : ManifestRs.File → Bool} :
    ∀ {l : List ManifestRs.File} {i : Nat}, findIndex p l = some i →
      i < l.length ∧ p (l.getD i default) = true := by
  intro l
  induction l with
  | nil => intro i h; simp [findIndex] at h
  | cons x xs ih =>
    intro i h
    by_cases hp : p x
    · simp [findIndex, hp] at h
      subst h
      simpa using hp
    · simp [findIndex, hp] at h
      obtain ⟨j, hj, rfl⟩ := h
      obtain ⟨hlt, hget⟩ := ih hj
      exact ⟨by simpa using Nat.succ_lt_succ hlt, by simpa using hget⟩

theorem swapRemove_perm :
    ∀ (l : List ManifestRs.File) (i : Nat), i < l.length →
      (l.getD i default :: swapRemove l i).Perm l := by
  intro l
  induction l with
  | nil => intro i h; simp at h
  | cons x xs ih =>
    intro i h
    rcases i with _ | j
    · rcases hxs : xs with _ | ⟨y, ys⟩
      · simp [swapRemove]
      · subst hxs
        have hne : (y :: ys) ≠ [] := by simp
        simp only [swapRemove, List.getLast?_cons_cons,
          List.getLast?_eq_getLast (y :: ys) hne, List.getD_cons_zero]
        simp only [List.set]
        have hdrop : ((y :: ys).getLast hne :: y :: ys).dropLast =
            (y :: ys).getLast hne :: (y :: ys).dropLast := by
          rfl
        rw [hdrop]
        refine List.Perm.cons x ?_
        have h1 : ((y :: ys).getLast hne :: (y :: ys).dropLast).Perm
            ((y :: ys).dropLast ++ [(y :: ys).getLast hne]) :=
          (List.perm_append_singleton _ _).symm
        have h2 : (y :: ys).dropLast ++ [(y :: ys).getLast hne] = y :: ys :=
          List.dropLast_append_getLast hne
        rw [h2] at h1
        exact h1
    · have hj : j < xs.length := by simpa using h
      have hxsne : xs ≠ [] := by
        intro hnil
        rw [hnil] at hj
        simp at hj
      have hlast : (x :: xs).getLast? = xs.getLast? := by
        cases xs with
        | nil => exact absurd rfl hxsne
        | cons y ys => exact List.getLast?_cons_cons
      simp only [swapRemove, hlast, List.getLast?_eq_getLast xs hxsne,
        List.set_cons_succ, List.getD_cons_succ]
      have hsetne : xs.set j (xs.getLast hxsne) ≠ [] := by
        intro hnil
        have hlen := congrArg List.length hnil
        rw [List.length_set] at hlen
        have h0 : xs.length = 0 := hlen.trans rfl
        omega
      have hdrop : (x :: xs.set j (xs.getLast hxsne)).dropLast =
          x :: (xs.set j (xs.getLast hxsne)).dropLast := by
        rcases hxs : xs.set j (xs.getLast hxsne) with _ | ⟨y, ys⟩
        · exact absurd hxs hsetne
        · rfl
      rw [hdrop]
      have ihx := ih j hj
      simp only [swapRemove, List.getLast?_eq_getLast xs hxsne] at ihx
      exact List.Perm.trans (List.Perm.swap x (xs.getD j default) _)
        (List.Perm.cons x ihx)

end DiffClaim

section DiffClaimMain

open ManifestRs

theorem diffGo_old_multiset :
    ∀ (oldFs newFs : List ManifestRs.File),
      (↑oldFs : Multiset ManifestRs.File) =
        ↑(diffGo newFs oldFs).same +
        ↑((diffGo newFs oldFs).updated.map Prod.fst) +
        ↑(diffGo newFs oldFs).oldRemaining := by
  intro oldFs
  induction oldFs with
  | nil => intro newFs; simp [diffGo]
  | cons o os ih =>
    intro newFs
    rcases hf1 : findIndex (fun inner => inner = o) newFs with _ | i
    · rcases hf2 : findIndex (fun inner => isUpdateMatch o inner) newFs with _ | i
      · simp only [diffGo, hf1, hf2, ← Multiset.cons_coe, Multiset.add_cons]
        rw [ih newFs]
      · simp only [diffGo, hf1, hf2, List.map_cons, ← Multiset.cons_coe,
          Multiset.cons_add, Multiset.add_cons]
        rw [ih (swapRemove newFs i)]
    · have hx : newFs.getD i default = o := by
        simpa using (findIndex_some_spec hf1).2
      simp only [diffGo, hf1, hx, ← Multiset.cons_coe, Multiset.cons_add]
      rw [ih (swapRemove newFs i)]

theorem diffGo_new_multiset :
    ∀ (oldFs newFs : List ManifestRs.File),
      (↑newFs : Multiset ManifestRs.File) =
        ↑(diffGo newFs oldFs).same +
        ↑((diffGo newFs oldFs).updated.map Prod.snd) +
        ↑(diffGo newFs oldFs).newRemaining := by
  intro oldFs
  induction oldFs with
  | nil => intro newFs; simp [diffGo]
  | cons o os ih =>
    intro newFs
    rcases hf1 : findIndex (fun inner => inner = o) newFs with _ | i
    · rcases hf2 : findIndex (fun inner => isUpdateMatch o inner) newFs with _ | i
      · simp only [diffGo, hf1, hf2]
        exact ih newFs
      · have hlt := (findIndex_some_spec hf2).1
        have hperm := swapRemove_perm newFs i hlt
        have hcoe : (↑newFs : Multiset ManifestRs.File) =
            newFs.getD i default ::ₘ ↑(swapRemove newFs i) := by
          rw [Multiset.cons_coe]
          exact (Multiset.coe_eq_coe.mpr hperm).symm
        simp only [diffGo, hf1, hf2, List.map_cons, ← Multiset.cons_coe,
          Multiset.cons_add, Multiset.add_cons]
        rw [hcoe, ih (swapRemove newFs i)]
    · have hlt := (findIndex_some_spec hf1).1
      have hperm := swapRemove_perm newFs i hlt
      have hcoe : (↑newFs : Multiset ManifestRs.File) =
          newFs.getD i default ::ₘ ↑(swapRemove newFs i) := by
        rw [Multiset.cons_coe]
        exact (Multiset.coe_eq_coe.mpr hperm).symm
      simp only [diffGo, hf1, ← Multiset.cons_coe, Multiset.cons_add]
      rw [hcoe, ih (swapRemove newFs i)]

theorem diffGo_updated_sound :
    ∀ (oldFs newFs : List ManifestRs.File),
      ∀ pr ∈ (diffGo newFs oldFs).updated,
        (pr.2.kind = FileKind.symlink ∨ pr.2.kind = FileKind.copy) ∧
        pr.2.target = pr.1.target := by
  intro oldFs
  induction oldFs with
  | nil => intro newFs pr hpr; simp [diffGo] at hpr
  | cons o os ih =>
    intro newFs pr hpr
    rcases hf1 : findIndex (fun inner => inner = o) newFs with _ | i
    · rcases hf2 : findIndex (fun inner => isUpdateMatch o inner) newFs with _ | i
      · simp only [diffGo, hf1, hf2] at hpr
        exact ih newFs pr hpr
      · simp only [diffGo, hf1, hf2] at hpr
        rcases List.mem_cons.mp hpr with hpr | hpr
        · subst hpr
          have hmatch := (findIndex_some_spec hf2).2
          simpa [isUpdateMatch] using hmatch
        · exact ih (swapRemove newFs i) pr hpr
    · simp only [diffGo, hf1] at hpr
      exact ih (swapRemove newFs i) pr hpr

/-- C2: the diff partition of `Manifest::diff`.  Each old entry lands in
exactly one of the three dispositions and each new entry is consumed at most
once (the two multiset accountings); every `updated` pair really is a
Symlink/Copy new entry with the old entry's target; and the per-entry rules
apply with the claimed precedence: a structurally equal new entry joins
`identical` (and is removed from the new list by `swap_remove`), otherwise a
target-matching Symlink/Copy new entry forms an `updated` pair, otherwise
the old entry stays for deactivation and the new list is untouched, so the
remaining new list holds exactly the entries never matched by either rule. -/
theorem c2_diff_partition :
    ∀ (newFs oldFs : List ManifestRs.File),
      ((↑oldFs : Multiset ManifestRs.File) =
        ↑(diffPartition newFs oldFs).same +
        ↑((diffPartition newFs oldFs).updated.map Prod.fst) +
        ↑(diffPartition newFs oldFs).oldRemaining) ∧
      ((↑newFs : Multiset ManifestRs.File) =
        ↑(diffPartition newFs oldFs).same +
        ↑((diffPartition newFs oldFs).updated.map Prod.snd) +
        ↑(diffPartition newFs oldFs).newRemaining) ∧
      (∀ pr ∈ (diffPartition newFs oldFs).updated,
        (pr.2.kind = FileKind.symlink ∨ pr.2.kind = FileKind.copy) ∧
        pr.2.target = pr.1.target) ∧
      (∀ (nf : List ManifestRs.File) (o : ManifestRs.File) os i,
        findIndex (fun inner => inner = o) nf = some i →
        diffGo nf (o :: os) =
          { diffGo (swapRemove nf i) os with
              same := o :: (diffGo (swapRemove nf i) os).same }) ∧
      (∀ (nf : List ManifestRs.File) (o : ManifestRs.File) os i,
        findIndex (fun inner => inner = o) nf = none →
        findIndex (fun inner => isUpdateMatch o inner) nf = some i →
        diffGo nf (o :: os) =
          { diffGo (swapRemove nf i) os with
              updated := (o, nf.getD i default) ::
                (diffGo (swapRemove nf i) os).updated }) ∧
      (∀ (nf : List ManifestRs.File) (o : ManifestRs.File) os,
        findIndex (fun inner => inner = o) nf = none →
        findIndex (fun inner => isUpdateMatch o inner) nf = none →
        diffGo nf (o :: os) =
          { diffGo nf os with
              oldRemaining := o :: (diffGo nf os).oldRemaining }) := by
  intro newFs oldFs
  refine ⟨diffGo_old_multiset oldFs newFs, diffGo_new_multiset oldFs newFs,
    diffGo_updated_sound oldFs newFs, ?_, ?_, ?_⟩
  · intro nf o os i h
    have hx : nf.getD i default = o := by
      simpa using (findIndex_some_spec h).2
    simp [diffGo, h]
    simpa [List.getD] using hx
  · intro nf o os i h1 h2
    simp [diffGo, h1, h2]
  · intro nf o os h1 h2
    simp [diffGo, h1, h2]

def c2n : ManifestRs.File :=
  ⟨some ⟨["s"]⟩, ⟨["t"]⟩, FileKind.symlink, none, none, none, none, none, none⟩

def c2o : ManifestRs.File :=
  ⟨some ⟨["s2"]⟩, ⟨["t"]⟩, FileKind.symlink, none, none, none, none, none, none⟩

theorem c2_witness :
    findIndex (fun inner => inner = c2o) [c2n] = none ∧
    findIndex (fun inner => isUpdateMatch c2o inner) [c2n] = some 0 ∧
    diffGo [c2n] [c2o] =
      { diffGo (swapRemove [c2n] 0) [] with
          updated := (c2o, [c2n].getD 0 default) ::
            (diffGo (swapRemove [c2n] 0) []).updated } :=
  ⟨by decide, by decide,
   (c2_diff_partition [c2n] [c2o]).2.2.2.2.1 [c2n] c2o [] 0 (by decide) (by decide)⟩

end DiffClaimMain

section AtomicSwapClaim

/-- The randomized sibling path: a fresh name in the target's directory. -/
def atomicSib (f : ManifestRs.File) (sibName : String) : FsPath :=
  ⟨f.target.components.dropLast ++ [sibName]⟩

/-- Modelled from the spec: the artifact-construction step of the atomic
replacer.  `FileWithMetadata::atomic_activate` is called from
`Manifest::diff` (src/manifest.rs lines 273-294) and by the activate
fast-path, but its definition is not under src/.  Per spec section 4.3, the
new artifact is created at the sibling (write the file / create the symlink,
then apply mode and ownership). -/
def atomicBuildOps (f : ManifestRs.File) (sibName : String) : List Op :=
  let sib := atomicSib f sibName
  (match f.kind, f.source with
    | ManifestRs.FileKind.copy, some s => [Op.copyFile s sib]
    | ManifestRs.FileKind.symlink, some s => [Op.mkSymlink s sib]
    | _, _ => []) ++
  (match f.permissions with
    | some p => [Op.setPerms sib p]
    | none => []) ++
  (if f.uid.isSome ∨ f.gid.isSome then
    [Op.chownOp sib f.uid f.gid (f.kind = ManifestRs.FileKind.symlink)]
  else [])

/-- Modelled from the spec: the atomic replacer (spec section 4.3).  Given
the fresh sibling name chosen by the bounded random regeneration, create the
new artifact at the sibling and rename it over the target in a single final
step.  Returns the emitted trace and the resulting state. -/
def atomic_activate (fs : Fs) (f : ManifestRs.File) (sibName : String) :
    List Op × Fs :=
  let ops := atomicBuildOps f sibName ++ [Op.rename (atomicSib f sibName) f.target]
  (ops, fs.applyTrace ops)

/-- Events whose only affected path is `p`. -/
def Op.touchesOnly (p : FsPath) : Op → Prop
  | Op.copyFile _ dst => dst = p
  | Op.mkSymlink _ dst => dst = p
  | Op.setPerms q _ => q = p
  | Op.chownOp q _ _ _ => q = p
  | _ => False

theorem metaOf_applyOp_of_touchesOnly (fs : Fs) (op : Op) (p t : FsPath)
    (h : Op.touchesOnly p op) (hne : p ≠ t) :
    (fs.applyOp op).metaOf t = fs.metaOf t := by
  cases op with
  | copyFile src dst =>
    obtain rfl : dst = p := h
    simp only [Fs.applyOp, Fs.metaOf]
    rcases hs : alookup fs.meta src with _ | mm
    · rfl
    · simp [alookup_aset, hne]
  | mkSymlink src dst =>
    obtain rfl : dst = p := h
    simp [Fs.applyOp, Fs.metaOf, alookup_aset, hne]
  | setPerms q mval =>
    have hqt : q ≠ t := by
      rw [(h : q = p)]
      exact hne
    simp only [Fs.applyOp, Fs.metaOf]
    rcases hs : alookup fs.meta q with _ | mm
    · simp [hs]
    · simp [hs, alookup_aset, hqt]
  | chownOp q u g nofollow =>
    have hqt : q ≠ t := by
      rw [(h : q = p)]
      exact hne
    simp only [Fs.applyOp, Fs.metaOf]
    rcases hs : alookup fs.meta q with _ | mm
    · simp [hs]
    · simp [hs, alookup_aset, hqt]
  | warnMissingSource q => exact absurd h (by simp [Op.touchesOnly])
  | infoAlreadyCorrect q => exact absurd h (by simp [Op.touchesOnly])
  | infoAlreadyDeleted q => exact absurd h (by simp [Op.touchesOnly])
  | infoDirExists q => exact absurd h (by simp [Op.touchesOnly])
  | removeFile q => exact absurd h (by simp [Op.touchesOnly])
  | removeDirAll q => exact absurd h (by simp [Op.touchesOnly])
  | removeDir q => exact absurd h (by simp [Op.touchesOnly])
  | rename a b => exact absurd h (by simp [Op.touchesOnly])
  | createDirAll q => exact absurd h (by simp [Op.touchesOnly])
  | recursiveWalk a b => exact absurd h (by simp [Op.touchesOnly])
  | recursiveCleanup a b => exact absurd h (by simp [Op.touchesOnly])

theorem metaOf_applyTrace_of_touchesOnly (l : List Op) :
    ∀ (fs : Fs) (p t : FsPath),
      (∀ op ∈ l, Op.touchesOnly p op) → p ≠ t →
      (fs.applyTrace l).metaOf t = fs.metaOf t := by
  induction l with
  | nil => intro fs p t _ _; rfl
  | cons op rest ih =>
    intro fs p t h hne
    have h1 := h op (List.mem_cons_self op rest)
    have hstep := metaOf_applyOp_of_touchesOnly fs op p t h1 hne
    simp only [Fs.applyTrace, List.foldl_cons]
    have hrest := ih (fs.applyOp op) p t
      (fun o ho => h o (List.mem_cons_of_mem _ ho)) hne
    simp only [Fs.applyTrace] at hrest
    rw [hrest]
    exact hstep

theorem atomicBuildOps_touchesOnly (f : ManifestRs.File) (sibName : String) :
    ∀ op ∈ atomicBuildOps f sibName, Op.touchesOnly (atomicSib f sibName) op := by
  intro op hop
  simp only [atomicBuildOps] at hop
  rcases List.mem_append.mp hop with hop | hop
  · rcases List.mem_append.mp hop with hop | hop
    · split at hop
      · simp at hop
        subst hop
        rfl
      · simp at hop
        subst hop
        rfl
      · simp at hop
    · split at hop
      · simp at hop
        subst hop
        rfl
      · simp at hop
  · split at hop
    · simp at hop
      subst hop
      rfl
    · simp at hop

end AtomicSwapClaim

/-- C1 (spec-modelled): for a Copy or Symlink entry replaced by the atomic
swap with effective clobber true and regular source and target, the target
path is present in every intermediate state (after every prefix of the
emitted trace), and the replacement is a single rename — the only rename in
the trace — from the randomized sibling (a fresh name in the target's own
directory) onto the target. -/
theorem c1_atomic_swap (fs : Fs) (f : ManifestRs.File) (sibName : String)
    (cbd : Option Bool) (tm : FMeta) (s : FsPath) (sm : FMeta)
    (hkind : f.kind = ManifestRs.FileKind.copy ∨
      f.kind = ManifestRs.FileKind.symlink)
    (hclobber : f.clobber.getD (cbd.getD false) = true)
    (hsrc : f.source = some s)
    (hsm : fs.metaOf s = some sm) (hsreg : sm.ftype = FType.regular)
    (htm : fs.metaOf f.target = some tm) (htreg : tm.ftype = FType.regular)
    (hfresh : fs.metaOf (atomicSib f sibName) = none) :
    (∀ k ≤ (atomic_activate fs f sibName).1.length,
      (fs.applyTrace ((atomic_activate fs f sibName).1.take k)).metaOf f.target ≠
        none) ∧
    (atomic_activate fs f sibName).1.filter
        (fun op => match op with | Op.rename _ _ => true | _ => false) =
      [Op.rename (atomicSib f sibName) f.target] ∧
    (atomicSib f sibName).components.dropLast = f.target.components.dropLast ∧
    atomicSib f sibName ≠ f.target := by
  have hne : atomicSib f sibName ≠ f.target := by
    intro he
    rw [he, htm] at hfresh
    exact absurd hfresh (by simp)
  have htouch := atomicBuildOps_touchesOnly f sibName
  have hops : (atomic_activate fs f sibName).1 =
      atomicBuildOps f sibName ++ [Op.rename (atomicSib f sibName) f.target] := rfl
  refine ⟨?_, ?_, ?_, hne⟩
  · intro k hk
    rw [hops] at hk ⊢
    by_cases hk2 : k ≤ (atomicBuildOps f sibName).length
    · rw [List.take_append_of_le_length hk2]
      have hall : ∀ op ∈ (atomicBuildOps f sibName).take k,
          Op.touchesOnly (atomicSib f sibName) op :=
        fun op ho => htouch op (List.take_subset k _ ho)
      rw [metaOf_applyTrace_of_touchesOnly _ fs _ _ hall hne, htm]
      simp
    · have hlen : (atomicBuildOps f sibName ++
          [Op.rename (atomicSib f sibName) f.target]).length =
          (atomicBuildOps f sibName).length + 1 := by simp
      have hkeq : k = (atomicBuildOps f sibName).length + 1 := by
        rw [hlen] at hk
        omega
      subst hkeq
      rw [List.take_of_length_le (le_of_eq hlen)]
      have hpres : (fs.applyTrace (atomicBuildOps f sibName)).metaOf f.target =
          fs.metaOf f.target :=
        metaOf_applyTrace_of_touchesOnly _ fs _ _ htouch hne
      simp only [Fs.applyTrace, List.foldl_append, List.foldl_cons, List.foldl_nil]
      simp only [Fs.applyTrace] at hpres
      simp only [Fs.applyOp, Fs.metaOf] at hpres ⊢
      rcases hsib : alookup (List.foldl Fs.applyOp fs (atomicBuildOps f sibName)).meta
          (atomicSib f sibName) with _ | msib
      · show alookup (List.foldl Fs.applyOp fs (atomicBuildOps f sibName)).meta
            f.target ≠ none
        have htm' : alookup fs.meta f.target = some tm := htm
        rw [hpres, htm']
        simp
      · show alookup (aset (adel (List.foldl Fs.applyOp fs
            (atomicBuildOps f sibName)).meta (atomicSib f sibName)) f.target msib)
            f.target ≠ none
        simp [alookup_aset]
  · rw [hops, List.filter_append]
    have hnil : (atomicBuildOps f sibName).filter
        (fun op => match op with | Op.rename _ _ => true | _ => false) = [] := by
      rw [List.filter_eq_nil_iff]
      intro a ha
      have hta := htouch a ha
      cases a <;> simp [Op.touchesOnly] at hta ⊢
    rw [hnil]
    rfl
  · simp [atomicSib, List.dropLast_concat]

def c1File : ManifestRs.File :=
  ⟨some ⟨["s"]⟩, ⟨["d", "t"]⟩, ManifestRs.FileKind.copy, some true, none, none,
    none, none, none⟩

def c1Fs : Fs :=
  ⟨[(⟨["d", "t"]⟩, ⟨FType.regular, 0o644, 0, 0⟩),
    (⟨["s"]⟩, ⟨FType.regular, 0o644, 0, 0⟩)], [], [], [], 0, 0⟩

theorem c1_witness :
    Fs.metaOf c1Fs (atomicSib c1File "r16") = none ∧
    (atomic_activate c1Fs c1File "r16").1.filter
        (fun op => match op with | Op.rename _ _ => true | _ => false) =
      [Op.rename (atomicSib c1File "r16") c1File.target] :=
  ⟨by decide,
   (c1_atomic_swap c1Fs c1File "r16" none ⟨FType.regular, 0o644, 0, 0⟩ ⟨["s"]⟩
      ⟨FType.regular, 0o644, 0, 0⟩ (Or.inl rfl) (by decide) rfl (by decide) rfl
      (by decide) rfl (by decide)).2.1⟩
